import Mathlib

/-!
Verification of the Voice-Flow streaming-transcription backend.

Shallow embedding of the core algorithms of
`backend/services/transcription_service.py` (streaming word reconciliation,
audio buffering, long-audio chunking, chunk merging),
`windows/backend/services/dictionary_service.py` (personal dictionary),
`windows/backend/services/rate_limiter.py` (sliding-window rate limiter) and
`backend/services/text_cleanup_service.py` (regex text cleanup), together
with theorems settling the specification's claims about them.

Python strings are modelled as Lean `String`; all string manipulation is
routed through `String.data : List Char` so that every definition is
executable by the kernel.  Python `str.split()` (split on whitespace runs,
dropping empty tokens), `str.strip()`, `str.lower()` and `" ".join` are
modelled by `splitWs`, `trimS`, `lowerS` and `joinWords` below.  Audio
sample arrays are modelled as `List Int` (sample values are opaque to all
of the verified code).  The external ASR engine is a black box: each
reconciliation pass receives its outcome as an `Option String` (`none`
models an exception raised by the model call, `some t` the cleaned text).
-/

namespace VoiceFlow

/-- Whitespace test used to model Python's `str.split()` / `str.strip()`. -/
def isWs (c : Char) : Bool := c.isWhitespace

/-- Tokenizer worker: `acc` holds the (reversed) word being scanned. -/
def splitWsAux : List Char → List Char → List (List Char)
  | [], acc => if acc.isEmpty then [] else [acc.reverse]
  | c :: cs, acc =>
    if isWs c then
      if acc.isEmpty then splitWsAux cs [] else acc.reverse :: splitWsAux cs []
    else
      splitWsAux cs (c :: acc)

/-- Model of Python `str.split()` on a character list: split on runs of
whitespace, dropping empty tokens. -/
def splitWs (cs : List Char) : List (List Char) := splitWsAux cs []

/-- Model of Python `text.split()` on a `String`. -/
def words (s : String) : List String := (splitWs s.data).map (fun l => String.mk l)

/-- Model of Python `" ".join(ws)` at the character level. -/
def joinWordsL : List (List Char) → List Char
  | [] => []
  | [w] => w
  | w :: x :: ws => w ++ '\x20' :: joinWordsL (x :: ws)

/-- Model of Python `" ".join(ws)` on strings. -/
def joinWords (ws : List String) : String :=
  String.mk (joinWordsL (ws.map String.data))

/-- Model of Python `str.strip()` at the character level. -/
def trimL (cs : List Char) : List Char :=
  ((cs.dropWhile isWs).reverse.dropWhile isWs).reverse

/-- Model of Python `str.strip()`. -/
def trimS (s : String) : String := String.mk (trimL s.data)

/-- Model of Python `str.lower()` (ASCII case folding, which is what the
transcripts contain). -/
def lowerS (s : String) : String := String.mk (s.data.map Char.toLower)

/-! ## StreamingTranscriber (`transcription_service.py`, class StreamingTranscriber) -/

/-- `StreamingTranscriber.MAX_BUFFER_SAMPLES = 16000 * 60 * 2` (2 minutes at
16 kHz, transcription_service.py line 83). -/
def MAX_BUFFER_SAMPLES : Nat := 16000 * 60 * 2

/-- `self.min_word_count = 4` (transcription_service.py line 96): a word must
be observed 4 times at a position before being confirmed. -/
def min_word_count : Nat := 4

/-- The sample rate the transcriber is constructed with (`sample_rate=16000`). -/
def sample_rate : Nat := 16000

/-- The mutable state of a `StreamingTranscriber`.  The Python dict
`self.word_counts`, keyed by the string `f"{i}:{word.lower()}"` with default
0, is modelled as a total function from the (position, lowercased word) pair
(the key format is injective in that pair); the `self.audio_buffer` list is
unused by every method under study and is omitted. -/
structure RState where
  accumulated_audio : List Int
  last_transcription : String
  confirmed_text : String
  confirmed_word_count : Nat
  word_counts : Nat × String → Nat

/-- The state `__init__` establishes (transcription_service.py lines 85-96). -/
def initState : RState :=
  { accumulated_audio := []
    last_transcription := ""
    confirmed_text := ""
    confirmed_word_count := 0
    word_counts := fun _ => 0 }

/-- `StreamingTranscriber.reset` (lines 98-105): every field is set back to
its `__init__` value. -/
def reset (_ : RState) : RState := initState

/-- The buffer update of `StreamingTranscriber.add_audio_chunk`
(lines 107-114): concatenate, then keep only the most recent
`MAX_BUFFER_SAMPLES` samples (`self.accumulated_audio[-self.MAX_BUFFER_SAMPLES:]`)
when the cap is exceeded. -/
def add_audio_chunk (acc chunk : List Int) : List Int :=
  let c := acc ++ chunk
  if MAX_BUFFER_SAMPLES < c.length then c.drop (c.length - MAX_BUFFER_SAMPLES) else c

/-- `add_audio_chunk` lifted to the transcriber state. -/
def addChunkS (s : RState) (chunk : List Int) : RState :=
  { s with accumulated_audio := add_audio_chunk s.accumulated_audio chunk }

/-- Increment of one counter of `self.word_counts`
(`self.word_counts[key] = self.word_counts.get(key, 0) + 1`, line 157). -/
def bump (f : Nat × String → Nat) (k : Nat × String) : Nat × String → Nat :=
  fun k' => if k' = k then f k + 1 else f k'

/-- The counting loop of `transcribe_current` (lines 153-157): for every word
of the current transcription at a position at or beyond the confirmed
boundary, increment the counter keyed by the position and the lowercased
word. -/
def incCounts (cwc : Nat) (ws : List String) (f : Nat × String → Nat) :
    Nat × String → Nat :=
  ws.enum.foldl
    (fun g iw => if cwc ≤ iw.1 then bump g (iw.1, lowerS iw.2) else g) f

/-- The confirmation walk of `transcribe_current` (lines 159-169): starting
at index `i` over the words beyond the confirmed boundary, take words whose
counter has reached `min_word_count` and stop at the first one that has not
(`break`). -/
def confirmLoop (f : Nat × String → Nat) : Nat → List String → List String
  | _, [] => []
  | i, w :: ws =>
    if min_word_count ≤ f (i, lowerS w) then w :: confirmLoop f (i + 1) ws
    else []

/-- Minimum audio before a pass does anything: `len < self.sample_rate * 0.4`
with `sample_rate = 16000`, i.e. 6400 samples (line 128). -/
def minPassSamples : Nat := 6400

/-- The counters after the counting loop of one `transcribe_current` pass
over `text` (they include the observation made by the current pass). -/
def passCounts (s : RState) (text : String) : Nat × String → Nat :=
  incCounts s.confirmed_word_count (words text) s.word_counts

/-- The `new_confirmed` list of one `transcribe_current` pass over `text`:
the forward walk from the confirmed boundary over the words beyond it. -/
def newConfirmed (s : RState) (text : String) : List String :=
  confirmLoop (passCounts s text) s.confirmed_word_count
    ((words text).drop s.confirmed_word_count)

/-- `StreamingTranscriber.transcribe_current` (lines 116-198) for one pass.
The ASR call (tempfile + `self.model.transcribe` + `_extract_text` +
`_clean_text`) is the black-box boundary: `asr = none` models the model call
raising an exception (caught at line 194), `asr = some text` models a
successful call whose extracted and cleaned text is `text`.  Returns the
`(partial_text, confirmed_text)` pair and the successor state.
Paths mirrored from the source:
 * fewer than 0.4 s of audio: return `("", confirmed_text)`, state untouched;
 * ASR error: return `("", confirmed_text)`, state untouched (lines 194-198);
 * blank text (`not text.strip()`): return `("", confirmed_text)`, state
   untouched (lines 147-148, reached before `last_transcription` is set);
 * otherwise: store `last_transcription`, bump counters for unconfirmed
   positions, append to `confirmed_text` the walked prefix of newly stable
   words, advance `confirmed_word_count`, and return the words beyond the
   new boundary as the partial text. -/
def transcribe_current (s : RState) (asr : Option String) :
    (String × String) × RState :=
  if s.accumulated_audio.length < minPassSamples then
    (("", s.confirmed_text), s)
  else
    match asr with
    | none => (("", s.confirmed_text), s)
    | some text =>
      if trimS text = "" then (("", s.confirmed_text), s)
      else
        let current_words := words text
        let f := passCounts s text
        let new_confirmed := newConfirmed s text
        let confirmed' :=
          if new_confirmed.isEmpty then s.confirmed_text
          else if s.confirmed_text ≠ "" then
            s.confirmed_text ++ " " ++ joinWords new_confirmed
          else joinWords new_confirmed
        let cwc' := s.confirmed_word_count + new_confirmed.length
        let tail_text :=
          if cwc' < current_words.length then joinWords (current_words.drop cwc')
          else ""
        ((tail_text, confirmed'),
         { s with
            last_transcription := text
            confirmed_text := confirmed'
            confirmed_word_count := cwc'
            word_counts := f })

/-- A sequence of reconciliation passes: fold `transcribe_current` over the
per-pass ASR outcomes, keeping the state. -/
def runPasses (s : RState) (asrs : List (Option String)) : RState :=
  asrs.foldl (fun st a => (transcribe_current st a).2) s

/-- The states a `StreamingTranscriber` can reach through `reset`,
`add_audio_chunk` and `transcribe_current` (with arbitrary audio and
arbitrary ASR outcomes). -/
inductive Reachable : RState → Prop where
  | start : Reachable initState
  | rst : ∀ s, Reachable s → Reachable (reset s)
  | add : ∀ s chunk, Reachable s → Reachable (addChunkS s chunk)
  | pass : ∀ s asr, Reachable s → Reachable (transcribe_current s asr).2

/-! ## Long-audio chunking (`_chunk_audio` lines 452-495, `_chunk_long_audio`
lines 313-342).  A chunk `audio[start:end]` is represented by the half-open
sample interval `(start, end)`.  `MAX_CHUNK_DURATION = 30.0` and
`CHUNK_OVERLAP = 2.0` seconds (lines 44-45); for an integer sample rate
`int(30.0 * sr) = 30 * sr` and `int(2.0 * sr) = 2 * sr` exactly. -/

/-- The common `while start_idx < len(audio)` loop of `_chunk_audio` and
`_chunk_long_audio`: emit `(start, min (start + chunk_samples) len)`, advance
by `stride_samples`, and stop once a chunk reached the end of the audio.
`fuel` only bounds the iteration count (any `fuel ≥ len` is enough since the
stride is positive). -/
def chunkLoop (len chunkS strideS : Nat) : Nat → Nat → List (Nat × Nat)
  | 0, _ => []
  | fuel + 1, start =>
    if start < len then
      let e := min (start + chunkS) len
      if len ≤ e then [(start, e)]
      else (start, e) :: chunkLoop len chunkS strideS fuel (start + strideS)
    else []

/-- `StreamingTranscriber._chunk_long_audio` on an audio buffer of `len`
samples at sample rate `sr`: 30 s chunks, 2 s overlap, stride 28 s. -/
def chunk_long_audio (len sr : Nat) : List (Nat × Nat) :=
  chunkLoop len (30 * sr) (30 * sr - 2 * sr) (len + 1) 0

/-- `TranscriptionService._chunk_audio`: audio of at most
`MAX_CHUNK_DURATION` seconds is returned whole (`return [audio_float32]`),
longer audio runs the chunking loop. -/
def chunk_audio (len sr : Nat) : List (Nat × Nat) :=
  if len ≤ 30 * sr then [(0, len)] else chunk_long_audio len sr

/-! ## Chunk merging (`merge_text`, transcription_service.py lines 847-893) -/

/-- `overlapMatch ew nw l`: the last `l` words of the existing transcript
equal the first `l` words of the new chunk, case-insensitively
(`[w.lower() for w in existing_tail] == [w.lower() for w in new_head]`,
line 884). -/
def overlapMatch (ew nw : List String) (l : Nat) : Bool :=
  (ew.drop (ew.length - l)).map lowerS == (nw.take l).map lowerS

/-- The overlap-search loop of `merge_text` (lines 878-885):
`for overlap_len in range(1, min(overlap_words + 1, len(ew) + 1, len(nw) + 1))`,
keeping the last (hence largest) length whose tail/head comparison matched;
`0` when none matched. -/
def bestOverlap (ew nw : List String) (maxLen : Nat) : Nat :=
  (List.range' 1 maxLen).foldl
    (fun best l => if overlapMatch ew nw l then l else best) 0

/-- `merge_text(existing, new_chunk, overlap_words)` (lines 847-893). -/
def merge_text (existing new_chunk : String) (overlap_words : Nat) : String :=
  if existing = "" then trimS new_chunk
  else if new_chunk = "" then trimS existing
  else
    let existing := trimS existing
    let new_chunk := trimS new_chunk
    let existing_words := words existing
    let new_words := words new_chunk
    if existing_words.isEmpty || new_words.isEmpty then
      trimS (existing ++ " " ++ new_chunk)
    else
      let maxLen :=
        min overlap_words (min existing_words.length new_words.length)
      let best_overlap := bestOverlap existing_words new_words maxLen
      if 0 < best_overlap then
        trimS (existing ++ " " ++ joinWords (new_words.drop best_overlap))
      else
        trimS (existing ++ " " ++ new_chunk)

/-! ## Rate limiter (`windows/backend/services/rate_limiter.py`).  Wall-clock
instants (`time.time()` floats) are modelled as integers; every comparison in
the source is order-only, so any linearly ordered time type works. -/

/-- The state of a `RateLimiter`: the request log is a `defaultdict(list)`
from client identifier to request times, modelled as an association list
(lookup of an absent key yields `[]`). -/
structure RateLimiter where
  requests_per_minute : Nat
  requests : List (String × List Int)
  last_cleanup : Int
  cleanup_interval : Int

/-- The `RateLimiter` constructor at time `now`
(`last_cleanup = time.time()`). -/
def RateLimiter.mkAt (requests_per_minute : Nat) (cleanup_interval : Int)
    (now : Int) : RateLimiter :=
  { requests_per_minute := requests_per_minute
    requests := []
    last_cleanup := now
    cleanup_interval := cleanup_interval }

/-- Lookup in the request log (`self.requests[client_ip]` of a
`defaultdict(list)` reads as `[]` when absent). -/
def getTimes (rs : List (String × List Int)) (ip : String) : List Int :=
  match rs.find? (fun p => p.1 == ip) with
  | some p => p.2
  | none => []

/-- Store a client's request list back into the log. -/
def setTimes (rs : List (String × List Int)) (ip : String) (ts : List Int) :
    List (String × List Int) :=
  match rs with
  | [] => [(ip, ts)]
  | p :: rest => if p.1 == ip then (ip, ts) :: rest else p :: setTimes rest ip ts

/-- `RateLimiter._cleanup_old_entries` (rate_limiter.py lines 18-31): a no-op
until `cleanup_interval` has elapsed since the last sweep; then every client
whose list is empty or whose newest request is older than a minute is
dropped, and `last_cleanup` is set to `now`. -/
def cleanup_old_entries (rl : RateLimiter) (now : Int) : RateLimiter :=
  if now - rl.last_cleanup < rl.cleanup_interval then rl
  else
    { rl with
      requests := rl.requests.filter (fun p =>
        match p.2.max? with
        | none => false
        | some m => decide (now - 60 ≤ m))
      last_cleanup := now }

/-- `RateLimiter.is_allowed` (lines 33-52) at time `now`: sweep, drop this
client's requests older than 60 s (`req_time > minute_ago`, strict), reject
if the remainder has reached `requests_per_minute`, else record `now` and
allow. -/
def is_allowed (rl : RateLimiter) (now : Int) (client_ip : String) :
    Bool × RateLimiter :=
  let rl := cleanup_old_entries rl now
  let ts := (getTimes rl.requests client_ip).filter
    (fun req_time => decide (now - 60 < req_time))
  if rl.requests_per_minute ≤ ts.length then
    (false, { rl with requests := setTimes rl.requests client_ip ts })
  else
    (true, { rl with requests := setTimes rl.requests client_ip (ts ++ [now]) })

/-! ## Personal dictionary (`windows/backend/services/dictionary_service.py`).
The dictionary (a Python dict iterated in insertion order) is modelled as an
association list of (mishearing, correction) pairs. -/

/-- `DANGEROUS_REGEX_CHARS = set('[](){}*+?|^$\\')` (dictionary_service.py
line 13). -/
def DANGEROUS_REGEX_CHARS : List Char :=
  ['[', ']', '(', ')', '\x7b', '\x7d', '*', '+', '?', '|', '^', '$', '\\']

/-- `validate_dictionary_entry` (lines 16-50), keeping only the boolean
verdict (the human-readable error message of the returned pair is elided).
The repetitiveness test `max_repeat > len(mishearing) * 0.8` is written as
`4 * len < 5 * max_repeat`, its exact rational form (for `len ≤ 100` the
float comparison agrees with the rational one). -/
def validate_dictionary_entry (mishearing correction : String) : Bool :=
  if trimS mishearing = "" then false
  else if trimS correction = "" then false
  else
    let m := trimS mishearing
    let c := trimS correction
    if 100 < m.length then false
    else if 200 < c.length then false
    else if m.data.any (fun ch => DANGEROUS_REGEX_CHARS.contains ch) then false
    else if 10 < m.length then
      let lm := m.data.map Char.toLower
      let maxRepeat := (lm.map (fun ch => lm.count ch)).foldr max 0
      if 4 * m.length < 5 * maxRepeat then false else true
    else true

/-- Case-insensitive literal replacement worker modelling
`re.compile(re.escape(mishearing), re.IGNORECASE).sub(correction, text)`
(dictionary_service.py lines 81-82): scan left to right; wherever the
lowercased text starts with the lowercased (escaped, hence literal) pattern,
emit the correction and skip one pattern length; matches never overlap and
replaced text is not rescanned, exactly as `re.sub`.  The replacement string
is emitted verbatim (faithful for corrections containing no backslash, the
only characters `re.sub` treats specially in a template).  `fuel` only
bounds recursion; any `fuel ≥ length` is enough. -/
def replGo (pat repl : List Char) : Nat → List Char → List Char
  | 0, cs => cs
  | _, [] => []
  | fuel + 1, c :: rest =>
    if (pat.map Char.toLower).isPrefixOf ((c :: rest).map Char.toLower) then
      repl ++ replGo pat repl fuel ((c :: rest).drop pat.length)
    else
      c :: replGo pat repl fuel rest

/-- One dictionary substitution on a string. -/
def replaceCI (text pat repl : String) : String :=
  String.mk (replGo pat.data repl.data (text.data.length + 1) text.data)

/-- `DictionaryService.apply_dictionary` (lines 72-84): fold every
(mishearing, correction) entry over the text with a case-insensitive literal
substitution; empty dictionary or empty text pass through. -/
def apply_dictionary (text : String) (dictionary : List (String × String)) :
    String :=
  if dictionary.isEmpty || text = "" then text
  else dictionary.foldl (fun r p => replaceCI r p.1 p.2) text

/-- Does `pat` occur as a contiguous sublist of `cs`?  (Helper for stating
that `apply_dictionary` only rewrites texts containing an occurrence.) -/
def hasSub (pat : List Char) : List Char → Bool
  | [] => pat.isEmpty
  | c :: cs => pat.isPrefixOf (c :: cs) || hasSub pat cs

/-! ## A small regex engine for the cleanup service
(`backend/services/text_cleanup_service.py`).

`TextCleanupService` is a pipeline of `re.sub` calls.  To embed it
faithfully, the exact constructs those patterns use are modelled: literals,
the classes `\w` `\d` `\s` `[...]`, concatenation, alternation (leftmost
preference), greedy `*`/`+`/`?`, capturing groups, backreferences (honouring
`re.IGNORECASE`), lookahead `(?=...)`, `\b`, `^` (with `re.MULTILINE`) and
`$`.  Matching is standard leftmost backtracking search with greedy
quantifier preference, exactly Python's strategy for these patterns; the
engine returns the candidate continuations in preference order and the
substitution takes the first.  Replacement templates consist of literal runs
and group references (plus an uppercased group reference for the one lambda
replacement in `_fix_formatting`). -/

/-- Regex abstract syntax (only the constructs the cleanup patterns use). -/
inductive RE where
  | eps : RE
  | lit : Char → RE
  | cls : (Char → Bool) → RE
  | seq : RE → RE → RE
  | alt : RE → RE → RE
  | star : RE → RE
  | group : Nat → RE → RE
  | backref : Nat → RE
  | lookahead : RE → RE
  | bound : RE
  | bol : RE
  | eol : RE

/-- Captured group spans, indexed by group number (Python numbering from 1;
slot 0 is unused).  `some (a, b)` is the half-open character span. -/
def Groups : Type := List (Option (Nat × Nat))

/-- Record group `i` as span `v` (pad the list as needed). -/
def setG (g : Groups) (i : Nat) (v : Nat × Nat) : Groups :=
  (List.append g (List.replicate (i + 1 - List.length g) none)).set i (some v)

/-- Character comparison, case-insensitive when `ci` (re.IGNORECASE). -/
def charEq (ci : Bool) (a b : Char) : Bool :=
  if ci then a.toLower == b.toLower else a == b

/-- `\w` (ASCII: the transcripts are ASCII). -/
def isWordChar (c : Char) : Bool := c.isAlphanum || c == '_'

/-- Word boundary `\b` at position `pos`. -/
def atBoundary (inp : List Char) (pos : Nat) : Bool :=
  let w := fun (o : Option Char) =>
    match o with
    | some c => isWordChar c
    | none => false
  (w (if pos = 0 then none else inp.get? (pos - 1))) != (w (inp.get? pos))

/-- Does `sub` occur verbatim (up to `ci`) at position `pos` of `inp`? -/
def strAt (ci : Bool) (inp : List Char) : Nat → List Char → Bool
  | _, [] => true
  | pos, c :: cs =>
    match inp.get? pos with
    | some d => charEq ci c d && strAt ci inp (pos + 1) cs
    | none => false

/-- Backtracking matcher: all ways `re` can match at `pos`, as
`(end position, groups)` pairs in preference order (greedy quantifiers
longest first, alternation left first) — the order Python's engine explores.
`fuel` bounds the recursion; every recursive call decreases it, and each
`star` iteration must consume input, so any `fuel` at least
`pattern size * (input length + 1)` is enough. -/
def mmatch (inp : List Char) (ci ml : Bool) :
    Nat → RE → Nat → Groups → List (Nat × Groups)
  | 0, _, _, _ => []
  | fuel + 1, re, pos, g =>
    match re with
    | .eps => [(pos, g)]
    | .lit c =>
      match inp.get? pos with
      | some d => if charEq ci c d then [(pos + 1, g)] else []
      | none => []
    | .cls p =>
      match inp.get? pos with
      | some d => if p d then [(pos + 1, g)] else []
      | none => []
    | .seq a b =>
      (mmatch inp ci ml fuel a pos g).flatMap
        (fun pg => mmatch inp ci ml fuel b pg.1 pg.2)
    | .alt a b =>
      mmatch inp ci ml fuel a pos g ++ mmatch inp ci ml fuel b pos g
    | .star a =>
      ((mmatch inp ci ml fuel a pos g).flatMap
        (fun pg =>
          if pos < pg.1 then mmatch inp ci ml fuel (.star a) pg.1 pg.2
          else [])) ++ [(pos, g)]
    | .group i a =>
      (mmatch inp ci ml fuel a pos g).map
        (fun pg => (pg.1, setG pg.2 i (pos, pg.1)))
    | .backref i =>
      match List.getD g i none with
      | none => []
      | some sp =>
        let sub := (inp.take sp.2).drop sp.1
        if strAt ci inp pos sub then [(pos + sub.length, g)] else []
    | .lookahead a =>
      if (mmatch inp ci ml fuel a pos g).isEmpty then [] else [(pos, g)]
    | .bound => if atBoundary inp pos then [(pos, g)] else []
    | .bol =>
      if pos == 0 || (ml && pos != 0 && inp.get? (pos - 1) == some '\x0a') then
        [(pos, g)]
      else []
    | .eol =>
      if pos == inp.length || (ml && inp.get? pos == some '\x0a')
          || (!ml && pos + 1 == inp.length && inp.get? pos == some '\x0a') then
        [(pos, g)]
      else []

/-- One element of a replacement template. -/
inductive RItem where
  | s : List Char → RItem
  | g : Nat → RItem
  | gUpper : Nat → RItem

/-- Expand a replacement template against the groups of a match. -/
def expandR (inp : List Char) (grp : Groups) : List RItem → List Char
  | [] => []
  | RItem.s cs :: r => cs ++ expandR inp grp r
  | RItem.g i :: r =>
    (match List.getD grp i none with
     | some sp => (inp.take sp.2).drop sp.1
     | none => []) ++ expandR inp grp r
  | RItem.gUpper i :: r =>
    (match List.getD grp i none with
     | some sp => ((inp.take sp.2).drop sp.1).map Char.toUpper
     | none => []) ++ expandR inp grp r

/-- The scan of `re.sub`: at each position take the leftmost match
(preference-first), emit the expanded replacement, and continue after the
match (after a zero-width match, also copy one character — Python's rule);
positions without a match copy their character.  `fuel` bounds the scan;
`input length + 1` is enough since the position strictly increases. -/
def subGo (re : RE) (rep : List RItem) (ci ml : Bool) (inp : List Char) :
    Nat → Nat → List Char
  | 0, pos => inp.drop pos
  | fuel + 1, pos =>
    match (mmatch inp ci ml ((inp.length + 2) * 100) re pos []).head? with
    | some pg =>
      if pos < pg.1 then
        expandR inp pg.2 rep ++ subGo re rep ci ml inp fuel pg.1
      else
        expandR inp pg.2 rep ++
          (match inp.get? pos with
           | some c => c :: subGo re rep ci ml inp fuel (pos + 1)
           | none => [])
    | none =>
      match inp.get? pos with
      | some c => c :: subGo re rep ci ml inp fuel (pos + 1)
      | none => []

/-- `re.sub(pattern, replacement, s, flags)` for our pattern language. -/
def applySub (re : RE) (rep : List RItem) (ci ml : Bool) (s : String) :
    String :=
  String.mk (subGo re rep ci ml s.data (s.data.length + 1) 0)

/-! Pattern combinators (sequence, alternation, literal string, class from
a character set, `\w` `\d` `\s`, `+`, `?`). -/

/-- Concatenation of a pattern list. -/
def rseq (l : List RE) : RE := l.foldr RE.seq RE.eps

/-- Alternation of a pattern list (left preference, as in Python). -/
def ralt : List RE → RE
  | [] => RE.eps
  | [r] => r
  | r :: s :: rs => RE.alt r (ralt (s :: rs))

/-- Literal string pattern. -/
def rstr (s : String) : RE := rseq (s.data.map RE.lit)

/-- Character class `[...]` from an explicit set. -/
def rcls (s : String) : RE := RE.cls (fun c => s.data.contains c)

/-- `\w`. -/
def wchar : RE := RE.cls isWordChar

/-- `\d`. -/
def dchar : RE := RE.cls Char.isDigit

/-- `\s`. -/
def schar : RE := RE.cls Char.isWhitespace

/-- Greedy `+`. -/
def rplus (r : RE) : RE := RE.seq r (RE.star r)

/-- Greedy `?`. -/
def ropt (r : RE) : RE := RE.alt r RE.eps

/-! ## TextCleanupService (`text_cleanup_service.py`), stage by stage. -/

/-- `(?:actually|no\s+wait|I\s+mean)` (patterns 1 and 3 of
`_handle_corrections`). -/
def corrMarkersA : RE :=
  ralt [rstr "actually",
        rseq [rstr "no", rplus schar, rstr "wait"],
        rseq [rstr "I", rplus schar, rstr "mean"]]

/-- `(?:no\s+wait|actually|I\s+mean)` (pattern 2 of `_handle_corrections`). -/
def corrMarkersB : RE :=
  ralt [rseq [rstr "no", rplus schar, rstr "wait"],
        rstr "actually",
        rseq [rstr "I", rplus schar, rstr "mean"]]

/-- Pattern 1: `\b(\w+)\s+(\d+)\s+(?:actually|no\s+wait|I\s+mean)\s+(\d+)\b`
→ `\1 \3` ("at 2 actually 3" → "at 3"). -/
def corrP1 : RE :=
  rseq [RE.bound, RE.group 1 (rplus wchar), rplus schar,
        RE.group 2 (rplus dchar), rplus schar, corrMarkersA, rplus schar,
        RE.group 3 (rplus dchar), RE.bound]

/-- Pattern 2: `\b(\d+)\s+(?:no\s+wait|actually|I\s+mean)\s+(\d+)\b` → `\2`
("5 no wait 6" → "6"). -/
def corrP2 : RE :=
  rseq [RE.bound, RE.group 1 (rplus dchar), rplus schar, corrMarkersB,
        rplus schar, RE.group 2 (rplus dchar), RE.bound]

/-- Pattern 3:
`\b(on|at|for|to)\s+(\w+)\s+(?:actually|no\s+wait|I\s+mean)\s+(\w+)\b` →
`\1 \3` ("on Monday actually Tuesday" → "on Tuesday"). -/
def corrP3 : RE :=
  rseq [RE.bound,
        RE.group 1 (ralt [rstr "on", rstr "at", rstr "for", rstr "to"]),
        rplus schar, RE.group 2 (rplus wchar), rplus schar, corrMarkersA,
        rplus schar, RE.group 3 (rplus wchar), RE.bound]

/-- Pattern 4: `\b(\w+),?\s+no,?\s+(\w+)\b` → `\2` ("X, no, Y" → "Y"). -/
def corrP4 : RE :=
  rseq [RE.bound, RE.group 1 (rplus wchar), ropt (RE.lit ','), rplus schar,
        rstr "no", ropt (RE.lit ','), rplus schar, RE.group 2 (rplus wchar),
        RE.bound]

/-- Pattern 5:
`\b(\w+)\s+(?:no|wait|I mean|sorry|actually)\s+(\w+)\b(?=\s|$|[,.])` → `\2`. -/
def corrP5 : RE :=
  rseq [RE.bound, RE.group 1 (rplus wchar), rplus schar,
        ralt [rstr "no", rstr "wait", rstr "I mean", rstr "sorry",
              rstr "actually"],
        rplus schar, RE.group 2 (rplus wchar), RE.bound,
        RE.lookahead (ralt [schar, RE.eol, rcls ",."])]

/-- `TextCleanupService._handle_corrections` (lines 46-72): the five `re.sub`
calls in order, all with `re.IGNORECASE`. -/
def handle_corrections (t : String) : String :=
  [(corrP1, [RItem.g 1, RItem.s (" ".data), RItem.g 3]),
   (corrP2, [RItem.g 2]),
   (corrP3, [RItem.g 1, RItem.s (" ".data), RItem.g 3]),
   (corrP4, [RItem.g 2]),
   (corrP5, [RItem.g 2])].foldl
    (fun acc pr => applySub pr.1 pr.2 true false acc) t

/-- The per-filler pattern of `_remove_pure_fillers`: `rf'\b{filler}+\b,?\s*'`
(the `+` binds to the filler's final character) with `re.IGNORECASE`,
replaced by the empty string.  `pre` is the filler without its last
character, `lastC` that last character. -/
def fillerPat (pre : String) (lastC : Char) : RE :=
  rseq [RE.bound, rseq (pre.data.map RE.lit), rplus (RE.lit lastC), RE.bound,
        ropt (RE.lit ','), RE.star schar]

/-- `TextCleanupService._remove_pure_fillers` (lines 74-83):
`PURE_FILLERS = ['um', 'uh', 'er', 'ah', 'hmm', 'hm', 'eh']` in order. -/
def remove_pure_fillers (t : String) : String :=
  [fillerPat "u" 'm', fillerPat "u" 'h', fillerPat "e" 'r', fillerPat "a" 'h',
   fillerPat "hm" 'm', fillerPat "h" 'm', fillerPat "e" 'h'].foldl
    (fun acc p => applySub p [] true false acc) t

/-- `\blike\s+(?=(?:the|a|an|this|that|I|you|he|she|it|we|they|\d))`. -/
def likePat : RE :=
  rseq [RE.bound, rstr "like", rplus schar,
        RE.lookahead (ralt [rstr "the", rstr "a", rstr "an", rstr "this",
                            rstr "that", rstr "I", rstr "you", rstr "he",
                            rstr "she", rstr "it", rstr "we", rstr "they",
                            dchar])]

/-- `\byou know\b,?\s*`. -/
def youKnowPat : RE :=
  rseq [RE.bound, rstr "you know", RE.bound, ropt (RE.lit ','), RE.star schar]

/-- `\bI mean\b,?\s*`. -/
def iMeanPat : RE :=
  rseq [RE.bound, rstr "I mean", RE.bound, ropt (RE.lit ','), RE.star schar]

/-- `rf'^{filler},?\s+'` (run with `re.IGNORECASE | re.MULTILINE`). -/
def startFillerPat (f : String) : RE :=
  rseq [RE.bol, rstr f, ropt (RE.lit ','), rplus schar]

/-- `rf'(\.\s+){filler},?\s+'` → `\1`. -/
def afterPeriodPat (f : String) : RE :=
  rseq [RE.group 1 (rseq [RE.lit '.', rplus schar]), rstr f,
        ropt (RE.lit ','), rplus schar]

/-- `rf'\b{filler}\b,?\s+'` for basically/literally/obviously/honestly. -/
def adverbPat (f : String) : RE :=
  rseq [RE.bound, rstr f, RE.bound, ropt (RE.lit ','), rplus schar]

/-- `TextCleanupService._remove_contextual_fillers` (lines 85-141): the
substitutions in source order ("like" before a determiner/pronoun/digit,
"you know", "I mean", the sentence-start fillers so/well/okay/right — once
anchored at `^` under MULTILINE, once after a period — then the four
adverb fillers). -/
def remove_contextual_fillers (t : String) : String :=
  let r := applySub likePat [] true false t
  let r := applySub youKnowPat [] true false r
  let r := applySub iMeanPat [] true false r
  let r := ["so", "well", "okay", "right"].foldl
    (fun acc f =>
      applySub (afterPeriodPat f) [RItem.g 1] true false
        (applySub (startFillerPat f) [] true true acc)) r
  ["basically", "literally", "obviously", "honestly"].foldl
    (fun acc f => applySub (adverbPat f) [] true false acc) r

/-- `\b(\w+)\s+\1\b` → `\1` with `re.IGNORECASE` (the backreference is also
case-insensitive under IGNORECASE). -/
def stutterPat : RE :=
  rseq [RE.bound, RE.group 1 (rplus wchar), rplus schar, RE.backref 1,
        RE.bound]

/-- `\b(I|we|they|he|she)\s+\1\b` → `\1` with `re.IGNORECASE`. -/
def pronounStutterPat : RE :=
  rseq [RE.bound,
        RE.group 1 (ralt [rstr "I", rstr "we", rstr "they", rstr "he",
                          rstr "she"]),
        rplus schar, RE.backref 1, RE.bound]

/-- `TextCleanupService._remove_stuttering` (lines 143-161). -/
def remove_stuttering (t : String) : String :=
  applySub pronounStutterPat [RItem.g 1] true false
    (applySub stutterPat [RItem.g 1] true false t)

/-- The capitalisation step of `_fix_formatting` (lines 185-187):
`if result and result[0].isalpha() and result[0].islower()`: uppercase the
first character. -/
def capFirst (s : String) : String :=
  match s.data with
  | [] => s
  | c :: cs => if c.isAlpha && c.isLower then String.mk (c.toUpper :: cs) else s

/-- `TextCleanupService._fix_formatting` (lines 163-196): whitespace
collapse, punctuation spacing, bracket spacing, duplicate punctuation,
first-letter capitalisation, capitalisation after sentence ends, final
strip.  All patterns run without flags (case-sensitive); the one lambda
replacement (`m.group(1) + m.group(2).upper()`) is the `RItem.gUpper`
template. -/
def fix_formatting (t : String) : String :=
  let r := applySub (rplus schar) [RItem.s (" ".data)] false false t
  let r := applySub (rseq [rplus schar, RE.group 1 (rcls ".,!?;:")])
    [RItem.g 1] false false r
  let r := applySub (rseq [RE.group 1 (ralt [RE.lit '(', RE.lit '[']),
    rplus schar]) [RItem.g 1] false false r
  let r := applySub (rseq [rplus schar,
    RE.group 1 (ralt [RE.lit ')', RE.lit ']'])]) [RItem.g 1] false false r
  let r := applySub (rseq [RE.group 1 (rcls ".,!?;:"),
    RE.group 2 (RE.cls Char.isAlpha)])
    [RItem.g 1, RItem.s (" ".data), RItem.g 2] false false r
  let r := applySub (rseq [RE.group 1 (rcls ".,!?"),
    rplus (RE.group 1 (rcls ".,!?"))]) [RItem.g 1] false false r
  let r := capFirst r
  let r := applySub (rseq [RE.group 1 (rseq [rcls ".!?", rplus schar]),
    RE.group 2 (RE.cls Char.isLower)]) [RItem.g 1, RItem.gUpper 2] false false r
  trimS r

/-- `TextCleanupService.cleanup` (lines 22-44): blank input is returned as
is; otherwise the five stages run in order and the result is stripped. -/
def cleanup (text : String) : String :=
  if trimS text = "" then text
  else
    trimS (fix_formatting (remove_stuttering (remove_contextual_fillers
      (remove_pure_fillers (handle_corrections text)))))

/-! ## Remaining shared definitions for the theorems. -/

/-- A word token as produced by `splitWs`: non-empty and free of
whitespace. -/
def GoodTok (w : List Char) : Prop := w ≠ [] ∧ ∀ c ∈ w, isWs c = false

/-- `GoodTok` on strings. -/
def GoodTokS (w : String) : Prop := GoodTok w.data

/-- The coupling invariant behind claim C10: the confirmed text is the
space-join of some list of proper word tokens whose length is
`confirmed_word_count`. -/
def InvGood (s : RState) : Prop :=
  ∃ ws : List String, (∀ w ∈ ws, GoodTokS w) ∧
    s.confirmed_text = joinWords ws ∧ s.confirmed_word_count = ws.length

/-- A transcriber state with just enough audio for a pass to run
(0.4 s at 16 kHz) and everything else as after `reset`; used to exercise
`transcribe_current` on concrete inputs. -/
def demoState : RState :=
  { accumulated_audio := List.replicate 6400 0
    last_transcription := ""
    confirmed_text := ""
    confirmed_word_count := 0
    word_counts := fun _ => 0 }

/-! # Theorems -/

/-- Two strings with the same character data are equal. -/
theorem str_ext {a b : String} (h : a.data = b.data) : a = b := by
  cases a
  cases b
  exact congrArg String.mk h

/-- Appending strings appends their character data. -/
theorem data_append (a b : String) : (a ++ b).data = a.data ++ b.data := by
  cases a
  cases b
  rfl

/-- Right identity of string append. -/
theorem str_append_empty (s : String) : s ++ "" = s := by
  apply str_ext
  rw [data_append]
  exact List.append_nil _

/-- Left identity of string append. -/
theorem str_empty_append (s : String) : "" ++ s = s := by
  apply str_ext
  rw [data_append]
  rfl

/-- Associativity of string append. -/
theorem str_append_assoc (a b c : String) : a ++ b ++ c = a ++ (b ++ c) := by
  apply str_ext
  simp [data_append]

/-- C9.  After every `add_audio_chunk` call the buffer holds at most
`MAX_BUFFER_SAMPLES` samples (2 minutes at 16 kHz); its length is the
concatenation's length capped there, and it always equals the most recent
suffix of the concatenation — so when an append would exceed the cap,
exactly the oldest excess samples are dropped. -/
theorem claim9_buffer_cap (buffer chunk : List Int) :
    (add_audio_chunk buffer chunk).length
        = min (buffer.length + chunk.length) MAX_BUFFER_SAMPLES
    ∧ (add_audio_chunk buffer chunk).length ≤ MAX_BUFFER_SAMPLES
    ∧ add_audio_chunk buffer chunk
        = (buffer ++ chunk).drop
            (buffer.length + chunk.length - MAX_BUFFER_SAMPLES) := by
  have hlen : (buffer ++ chunk).length = buffer.length + chunk.length :=
    List.length_append _ _
  by_cases h : MAX_BUFFER_SAMPLES < (buffer ++ chunk).length
  · have e : add_audio_chunk buffer chunk
        = (buffer ++ chunk).drop
            (buffer.length + chunk.length - MAX_BUFFER_SAMPLES) := by
      have h' : MAX_BUFFER_SAMPLES < buffer.length + chunk.length := by
        omega
      simp only [add_audio_chunk, hlen, if_pos h']
    refine ⟨?_, ?_, e⟩
    · rw [e, List.length_drop, hlen]
      omega
    · rw [e, List.length_drop, hlen]
      omega
  · have h0 : buffer.length + chunk.length - MAX_BUFFER_SAMPLES = 0 := by
      omega
    have e : add_audio_chunk buffer chunk = buffer ++ chunk := by
      simp only [add_audio_chunk, if_neg h]
    refine ⟨?_, ?_, ?_⟩
    · rw [e, hlen]
      omega
    · rw [e, hlen]
      omega
    · rw [e, h0, List.drop_zero]

/-- An errored ASR pass leaves everything alone (helper shared by several
claims). -/
theorem transcribe_none_eq (s : RState) :
    transcribe_current s none = (("", s.confirmed_text), s) := by
  unfold transcribe_current
  split
  · rfl
  · rfl

/-- The confirmed-text update formula of `transcribe_current` only ever
appends. -/
theorem confirmed_formula_extends (base : String) (nc : List String) :
    ∃ t, (if nc.isEmpty then base
          else if base ≠ "" then base ++ " " ++ joinWords nc
          else joinWords nc) = base ++ t := by
  by_cases h : nc.isEmpty
  · exact ⟨"", by simp [h, str_append_empty]⟩
  by_cases hb : base = ""
  · subst hb
    exact ⟨joinWords nc, by simp [h, str_empty_append]⟩
  · exact ⟨" " ++ joinWords nc, by simp [h, hb, str_append_assoc]⟩

/-- A single reconciliation pass only appends to the confirmed text. -/
theorem step_extends (s : RState) (a : Option String) :
    ∃ t, (transcribe_current s a).2.confirmed_text = s.confirmed_text ++ t := by
  by_cases hlen : s.accumulated_audio.length < minPassSamples
  · exact ⟨"", by simp [transcribe_current, hlen, str_append_empty]⟩
  cases a with
  | none => exact ⟨"", by rw [transcribe_none_eq, str_append_empty]⟩
  | some text =>
    by_cases htr : trimS text = ""
    · exact ⟨"", by simp [transcribe_current, hlen, htr, str_append_empty]⟩
    · simp only [transcribe_current, if_neg hlen, if_neg htr]
      exact confirmed_formula_extends s.confirmed_text _

/-- C1.  For every transcriber state and every sequence of
`transcribe_current` passes — each fed an arbitrary ASR outcome, including
errors (`none`) and blank text — the confirmed text after the passes extends
the confirmed text before them by a (possibly empty) suffix: it is never
edited, shortened or reordered, only appended to.  Applied to the states
after passes `n` and `n+1` (a one-element sequence), pass `n+1`'s confirmed
text is a prefix-extension of pass `n`'s. -/
theorem claim1_confirmed_text_monotonic (s : RState)
    (asrs : List (Option String)) :
    ∃ t, (runPasses s asrs).confirmed_text = s.confirmed_text ++ t := by
  induction asrs generalizing s with
  | nil => exact ⟨"", (str_append_empty _).symm⟩
  | cons a rest ih =>
    obtain ⟨t1, h1⟩ := step_extends s a
    obtain ⟨t2, h2⟩ := ih (transcribe_current s a).2
    refine ⟨t1 ++ t2, ?_⟩
    show (runPasses (transcribe_current s a).2 rest).confirmed_text = _
    rw [h2, h1, str_append_assoc]

/-- C5 (amended).  If the ASR call inside a `transcribe_current` pass raises
an error, the pass is skipped: the returned partial text is empty (the
source deliberately returns `""` "to avoid duplication", line 197), the
returned confirmed text is the stored confirmed text, and no reconciler
state (confirmed text, confirmed word count, word counters, accumulated
audio, last transcription) is modified. -/
theorem claim5_error_pass_amended (s : RState) :
    (transcribe_current s none).1.1 = ""
    ∧ (transcribe_current s none).1.2 = s.confirmed_text
    ∧ (transcribe_current s none).2 = s := by
  rw [transcribe_none_eq]
  exact ⟨rfl, rfl, rfl⟩

/-- C5, counterexample to the claim as stated.  The claim says the errored
pass returns "the partial text of the previous pass"; the code returns the
empty string instead.  From a reset state with 0.4 s of audio, a pass seeing
"hello" returns partial text `"hello"`; an errored pass right after it
returns `""`, not `"hello"`. -/
theorem claim5_error_pass_counterexample :
    (transcribe_current demoState (some "hello")).1.1 = "hello"
    ∧ (transcribe_current ((transcribe_current demoState (some "hello")).2)
        none).1.1 = ""
    ∧ (transcribe_current ((transcribe_current demoState (some "hello")).2)
        none).1.1
      ≠ (transcribe_current demoState (some "hello")).1.1 := by
  have hnl : ¬ (demoState.accumulated_audio.length < minPassSamples) := by
    show ¬ ((List.replicate 6400 (0 : Int)).length < 6400)
    rw [List.length_replicate]
    omega
  have ha : (transcribe_current demoState (some "hello")).1.1 = "hello" := by
    simp only [transcribe_current, if_neg hnl]
    rfl
  refine ⟨ha, ?_, ?_⟩
  · rw [transcribe_none_eq]
  · rw [transcribe_none_eq, ha]
    decide

/-- Indexing into a dropped list. -/
theorem getD_drop {α : Type} (l : List α) :
    ∀ (m k : Nat) (d : α), (l.drop m).getD k d = l.getD (m + k) d := by
  induction l with
  | nil => intro m k d; simp
  | cons a l ih =>
    intro m k d
    cases m with
    | zero => simp
    | succ m =>
      have hmk : m + 1 + k = (m + k) + 1 := by omega
      rw [List.drop_succ_cons, ih m k d, hmk, List.getD_cons_succ]

/-- The confirmation walk takes an initial segment of its word list. -/
theorem confirmLoop_front (f : Nat × String → Nat) :
    ∀ (l : List String) (i : Nat), ∃ t, confirmLoop f i l ++ t = l := by
  intro l
  induction l with
  | nil => intro i; exact ⟨[], rfl⟩
  | cons w ws ih =>
    intro i
    by_cases h : min_word_count ≤ f (i, lowerS w)
    · obtain ⟨t, ht⟩ := ih (i + 1)
      refine ⟨t, ?_⟩
      simp only [confirmLoop, if_pos h, List.cons_append, ht]
    · exact ⟨w :: ws, by simp [confirmLoop, h]⟩

/-- The walk never takes more words than its list holds. -/
theorem confirmLoop_length_le (f : Nat × String → Nat) (l : List String)
    (i : Nat) : (confirmLoop f i l).length ≤ l.length := by
  obtain ⟨t, ht⟩ := confirmLoop_front f l i
  have := congrArg List.length ht
  simp only [List.length_append] at this
  omega

/-- Every position the walk takes has a counter at the threshold. -/
theorem confirmLoop_passes (f : Nat × String → Nat) :
    ∀ (l : List String) (i k : Nat), k < (confirmLoop f i l).length →
      min_word_count ≤ f (i + k, lowerS (l.getD k "")) := by
  intro l
  induction l with
  | nil => intro i k h; simp [confirmLoop] at h
  | cons w ws ih =>
    intro i k h
    by_cases hc : min_word_count ≤ f (i, lowerS w)
    · rw [confirmLoop, if_pos hc] at h
      cases k with
      | zero => simpa using hc
      | succ k =>
        have hk : k < (confirmLoop f (i + 1) ws).length := by
          simpa using h
        have := ih (i + 1) k hk
        have hik : i + (k + 1) = (i + 1) + k := by omega
        rw [hik, List.getD_cons_succ]
        exact this
    · rw [confirmLoop, if_neg hc] at h
      simp at h

/-- When the walk stops inside the list, the stop position's counter is
below the threshold (the "first unstable word"). -/
theorem confirmLoop_stops (f : Nat × String → Nat) :
    ∀ (l : List String) (i : Nat), (confirmLoop f i l).length < l.length →
      ¬ min_word_count ≤
          f (i + (confirmLoop f i l).length,
            lowerS (l.getD (confirmLoop f i l).length "")) := by
  intro l
  induction l with
  | nil => intro i h; simp at h
  | cons w ws ih =>
    intro i h
    by_cases hc : min_word_count ≤ f (i, lowerS w)
    · have hlen : (confirmLoop f i (w :: ws)).length
          = (confirmLoop f (i + 1) ws).length + 1 := by
        simp [confirmLoop, hc]
      rw [hlen] at h ⊢
      have hrec := ih (i + 1) (by simpa using h)
      have hik : i + ((confirmLoop f (i + 1) ws).length + 1)
          = (i + 1) + (confirmLoop f (i + 1) ws).length := by omega
      rw [hik, List.getD_cons_succ]
      exact hrec
    · have hlen : (confirmLoop f i (w :: ws)).length = 0 := by
        simp [confirmLoop, hc]
      rw [hlen]
      simpa using hc

/-- C2.  In a successful `transcribe_current` pass over `text` (enough
audio, non-blank text), with `passCounts` the counters after this pass's
counting loop (so counting the current pass) and `newConfirmed` the words
the pass appends:  the threshold is 4; the boundary advances by exactly
`newConfirmed`'s length; `newConfirmed` is an initial segment of the words
beyond the old boundary (the words appended are the words at those
positions); and a tracked position `i` is confirmed in this pass **iff**
every position from the boundary up to `i` (inclusive) has a counter that
reached the threshold — so a counter one short stops the walk, and a later
position that reached the threshold is never confirmed across such a gap. -/
theorem claim2_confirmation_threshold (s : RState) (text : String) (i : Nat)
    (hlen : ¬ s.accumulated_audio.length < minPassSamples)
    (htr : trimS text ≠ "") :
    min_word_count = 4
    ∧ (transcribe_current s (some text)).2.confirmed_word_count
        = s.confirmed_word_count + (newConfirmed s text).length
    ∧ (∃ rest, newConfirmed s text ++ rest
        = (words text).drop s.confirmed_word_count)
    ∧ ((s.confirmed_word_count ≤ i
          ∧ i < s.confirmed_word_count + (newConfirmed s text).length)
        ↔ (s.confirmed_word_count ≤ i ∧ i < (words text).length
            ∧ ∀ j, s.confirmed_word_count ≤ j → j ≤ i →
                min_word_count
                  ≤ passCounts s text (j, lowerS ((words text).getD j "")))) := by
  refine ⟨rfl, ?_, ?_, ?_⟩
  · simp only [transcribe_current, if_neg hlen, if_neg htr]
  · exact confirmLoop_front _ _ _
  · have hle : (newConfirmed s text).length
        ≤ ((words text).drop s.confirmed_word_count).length :=
      confirmLoop_length_le _ _ _
    rw [List.length_drop] at hle
    constructor
    · rintro ⟨hci, hin⟩
      refine ⟨hci, by omega, ?_⟩
      intro j hcj hji
      have hk : j - s.confirmed_word_count < (newConfirmed s text).length := by
        omega
      have := confirmLoop_passes (passCounts s text)
        ((words text).drop s.confirmed_word_count) s.confirmed_word_count
        (j - s.confirmed_word_count) hk
      rw [getD_drop] at this
      have hj : s.confirmed_word_count + (j - s.confirmed_word_count) = j := by
        omega
      rwa [hj] at this
    · rintro ⟨hci, hiw, hall⟩
      refine ⟨hci, ?_⟩
      by_contra hge
      have hn : (newConfirmed s text).length
          < ((words text).drop s.confirmed_word_count).length := by
        rw [List.length_drop]
        omega
      have hstop := confirmLoop_stops (passCounts s text)
        ((words text).drop s.confirmed_word_count) s.confirmed_word_count hn
      rw [getD_drop] at hstop
      exact hstop (hall (s.confirmed_word_count + (newConfirmed s text).length)
        (by omega) (by omega))

/-- C2, concrete instance (witness): from a reset state with 0.4 s of audio,
a first pass over "hi" confirms nothing (position 0 has been seen once,
short of the threshold 4). -/
theorem claim2_confirmation_threshold_inst :
    min_word_count = 4
    ∧ (transcribe_current demoState (some "hi")).2.confirmed_word_count
        = demoState.confirmed_word_count + (newConfirmed demoState "hi").length
    ∧ (∃ rest, newConfirmed demoState "hi" ++ rest
        = (words "hi").drop demoState.confirmed_word_count)
    ∧ ((demoState.confirmed_word_count ≤ 0
          ∧ 0 < demoState.confirmed_word_count
              + (newConfirmed demoState "hi").length)
        ↔ (demoState.confirmed_word_count ≤ 0 ∧ 0 < (words "hi").length
            ∧ ∀ j, demoState.confirmed_word_count ≤ j → j ≤ 0 →
                min_word_count
                  ≤ passCounts demoState "hi"
                      (j, lowerS ((words "hi").getD j "")))) :=
  claim2_confirmation_threshold demoState "hi" 0
    (by
      show ¬ ((List.replicate 6400 (0 : Int)).length < 6400)
      rw [List.length_replicate]
      omega)
    (by decide)

/-- Rebuilding a string from its data is the identity. -/
theorem mk_data (s : String) : String.mk s.data = s := by
  cases s
  rfl

/-- Scanning a whitespace-free block shifts it into the accumulator. -/
theorem splitWsAux_token :
    ∀ (w cs acc : List Char), (∀ c ∈ w, isWs c = false) →
      splitWsAux (w ++ cs) acc = splitWsAux cs (w.reverse ++ acc) := by
  intro w
  induction w with
  | nil => intro cs acc _; rfl
  | cons c w ih =>
    intro cs acc hw
    have hc : isWs c = false := hw c (List.mem_cons_self c w)
    show splitWsAux (c :: (w ++ cs)) acc = _
    simp only [splitWsAux, hc, Bool.false_eq_true, if_false]
    rw [ih cs (c :: acc) (fun x hx => hw x (List.mem_cons_of_mem c hx))]
    simp [List.append_assoc]

/-- A space flushes a non-empty accumulator as a finished token. -/
theorem splitWsAux_flush (cs : List Char) :
    ∀ acc, acc ≠ [] →
      splitWsAux ('\x20' :: cs) acc = acc.reverse :: splitWsAux cs [] := by
  intro acc h
  cases acc with
  | nil => exact absurd rfl h
  | cons a as =>
    have hw : isWs '\x20' = true := rfl
    simp [splitWsAux, hw]

/-- Every token produced by the tokenizer is non-empty and free of
whitespace. -/
theorem splitWsAux_good :
    ∀ (cs acc : List Char), (∀ c ∈ acc, isWs c = false) →
      ∀ w ∈ splitWsAux cs acc, GoodTok w := by
  intro cs
  induction cs with
  | nil =>
    intro acc hacc w hw
    by_cases h : acc.isEmpty
    · simp [splitWsAux, h] at hw
    · simp only [splitWsAux, h, Bool.false_eq_true, if_false,
        List.mem_singleton] at hw
      subst hw
      have hne : acc ≠ [] := by
        intro h0
        rw [h0] at h
        exact h rfl
      refine ⟨by simpa using hne, ?_⟩
      intro c hc
      exact hacc c (List.mem_reverse.mp hc)
  | cons c cs ih =>
    intro acc hacc w hw
    by_cases hc : isWs c
    · by_cases ha : acc.isEmpty
      · rw [splitWsAux] at hw
        simp only [hc, if_true, ha] at hw
        exact ih [] (by simp) w hw
      · rw [splitWsAux] at hw
        simp only [hc, if_true, ha, Bool.false_eq_true, if_false,
          List.mem_cons] at hw
        rcases hw with hw | hw
        · subst hw
          have hne : acc ≠ [] := by
            intro h0
            rw [h0] at ha
            exact ha rfl
          refine ⟨by simpa using hne, ?_⟩
          intro x hx
          exact hacc x (List.mem_reverse.mp hx)
        · exact ih [] (by simp) w hw
    · rw [splitWsAux] at hw
      simp only [hc, Bool.false_eq_true, if_false] at hw
      refine ih (c :: acc) ?_ w hw
      intro x hx
      rcases List.mem_cons.mp hx with hx | hx
      · subst hx
        exact Bool.not_eq_true _ ▸ eq_false_of_ne_true hc
      · exact hacc x hx

/-- Every word of `words s` is a proper token. -/
theorem words_tokens_good (s : String) : ∀ w ∈ words s, GoodTokS w := by
  intro w hw
  obtain ⟨u, hu, rfl⟩ := List.mem_map.mp hw
  exact splitWsAux_good s.data [] (by simp) u hu

/-- Splitting a space-join of proper tokens recovers the tokens. -/
theorem splitWs_join :
    ∀ (ws : List (List Char)), (∀ w ∈ ws, GoodTok w) →
      splitWs (joinWordsL ws) = ws := by
  intro ws
  induction ws with
  | nil => intro _; rfl
  | cons w t ih =>
    intro h
    have hw : GoodTok w := h w (List.mem_cons_self w t)
    cases t with
    | nil =>
      show splitWs w = [w]
      unfold splitWs
      have hsplit := splitWsAux_token w [] [] hw.2
      rw [List.append_nil] at hsplit
      rw [hsplit]
      simp [splitWsAux, hw.1]
    | cons x t' =>
      show splitWs (w ++ '\x20' :: joinWordsL (x :: t')) = w :: x :: t'
      unfold splitWs
      rw [splitWsAux_token w _ [] hw.2]
      rw [splitWsAux_flush _ _ (by simp [hw.1])]
      rw [List.append_nil, List.reverse_reverse]
      have ht := ih (fun u hu => h u (List.mem_cons_of_mem w hu))
      unfold splitWs at ht
      rw [ht]

/-- Joining an append of non-empty token lists inserts one space. -/
theorem joinL_append :
    ∀ (a b : List (List Char)), a ≠ [] → b ≠ [] →
      joinWordsL (a ++ b) = joinWordsL a ++ '\x20' :: joinWordsL b := by
  intro a
  induction a with
  | nil => intro b h _; exact absurd rfl h
  | cons w t ih =>
    intro b _ hb
    cases t with
    | nil =>
      cases b with
      | nil => exact absurd rfl hb
      | cons x bt => rfl
    | cons y t' =>
      show joinWordsL (w :: (y :: (t' ++ b))) = _
      have hstep : joinWordsL (w :: (y :: (t' ++ b)))
          = w ++ '\x20' :: joinWordsL (y :: (t' ++ b)) := rfl
      rw [hstep]
      have hrec := ih b (by simp) hb
      show _ = joinWordsL (w :: y :: t') ++ '\x20' :: joinWordsL b
      have hstep2 : joinWordsL (w :: y :: t') = w ++ '\x20' :: joinWordsL (y :: t') := rfl
      rw [hstep2]
      have : joinWordsL ((y :: t') ++ b) = joinWordsL (y :: (t' ++ b)) := rfl
      rw [← this, hrec]
      simp [List.append_assoc]

/-- `words` and `joinWords` are mutually inverse on lists of proper word
tokens. -/
theorem words_joinWords (ws : List String) (h : ∀ w ∈ ws, GoodTokS w) :
    words (joinWords ws) = ws := by
  unfold words joinWords
  show (splitWs (joinWordsL (ws.map String.data))).map (fun l => String.mk l)
      = ws
  rw [splitWs_join (ws.map String.data) ?_]
  · rw [List.map_map]
    calc ws.map ((fun l => String.mk l) ∘ String.data)
        = ws.map id := by
          apply List.map_congr_left
          intro w _
          exact mk_data w
      _ = ws := List.map_id ws
  · intro w hw
    obtain ⟨u, hu, rfl⟩ := List.mem_map.mp hw
    exact h u hu

/-- `joinWords` over an append of non-empty lists. -/
theorem joinWords_append (a b : List String) (ha : a ≠ []) (hb : b ≠ []) :
    joinWords (a ++ b) = joinWords a ++ " " ++ joinWords b := by
  apply str_ext
  rw [data_append, data_append]
  show joinWordsL ((a ++ b).map String.data) = _
  rw [List.map_append,
    joinL_append _ _ (by simpa using ha) (by simpa using hb)]
  simp [joinWords, List.append_assoc]

/-- A space-join of proper tokens is empty only for the empty list. -/
theorem joinWords_ne_empty (ws : List String) (h : ∀ w ∈ ws, GoodTokS w)
    (hne : ws ≠ []) : joinWords ws ≠ "" := by
  cases ws with
  | nil => exact absurd rfl hne
  | cons w t =>
    intro he
    have hd := congrArg String.data he
    have hgw := (h w (List.mem_cons_self w t)).1
    cases t with
    | nil =>
      exact hgw (by simpa [joinWords] using hd)
    | cons x t' =>
      have h3 : joinWordsL (w.data :: x.data :: t'.map String.data) = [] := by
        simpa [joinWords] using hd
      have h2 : w.data ++ '\x20' :: joinWordsL (x.data :: t'.map String.data)
          = [] := h3
      simpa using congrArg List.length h2

/-- The words a pass newly confirms are words of the pass's transcription,
hence proper tokens. -/
theorem newConfirmed_good (s : RState) (text : String) :
    ∀ w ∈ newConfirmed s text, GoodTokS w := by
  intro w hw
  obtain ⟨t, ht⟩ := confirmLoop_front (passCounts s text)
    ((words text).drop s.confirmed_word_count) s.confirmed_word_count
  have hdrop : w ∈ (words text).drop s.confirmed_word_count := by
    rw [← ht]
    exact List.mem_append_left t hw
  exact words_tokens_good text w (List.mem_of_mem_drop hdrop)

/-- One `transcribe_current` pass preserves the coupling invariant. -/
theorem step_inv (s : RState) (a : Option String) (h : InvGood s) :
    InvGood (transcribe_current s a).2 := by
  by_cases hlen : s.accumulated_audio.length < minPassSamples
  · simpa [transcribe_current, hlen] using h
  cases a with
  | none =>
    rw [transcribe_none_eq]
    exact h
  | some text =>
    by_cases htr : trimS text = ""
    · simpa [transcribe_current, hlen, htr] using h
    obtain ⟨ws, hg, hct, hcc⟩ := h
    simp only [transcribe_current, if_neg hlen, if_neg htr]
    by_cases hnc : (newConfirmed s text).isEmpty
    · have h0 : newConfirmed s text = [] := by
        simpa using hnc
      exact ⟨ws, hg, by simp [hnc, hct], by simp [h0, hcc]⟩
    · have hnew : newConfirmed s text ≠ [] := by
        intro h0
        rw [h0] at hnc
        exact hnc rfl
      by_cases hbase : s.confirmed_text = ""
      · have hws : ws = [] := by
          by_contra hne
          exact joinWords_ne_empty ws hg hne (hct ▸ hbase)
        refine ⟨newConfirmed s text, newConfirmed_good s text, ?_, ?_⟩
        · simp [hnc, hbase]
        · have : s.confirmed_word_count = 0 := by
            rw [hcc, hws]
            rfl
          simp [this]
      · refine ⟨ws ++ newConfirmed s text, ?_, ?_, ?_⟩
        · intro w hw
          rcases List.mem_append.mp hw with hw | hw
          · exact hg w hw
          · exact newConfirmed_good s text w hw
        · have hwsne : ws ≠ [] := by
            intro h0
            apply hbase
            rw [hct, h0]
            rfl
          show (if (newConfirmed s text).isEmpty then s.confirmed_text
            else if s.confirmed_text ≠ "" then
              s.confirmed_text ++ " " ++ joinWords (newConfirmed s text)
            else joinWords (newConfirmed s text))
              = joinWords (ws ++ newConfirmed s text)
          rw [joinWords_append ws (newConfirmed s text) hwsne hnew, ← hct]
          simp [hnc, hbase]
        · show s.confirmed_word_count + (newConfirmed s text).length
            = (ws ++ newConfirmed s text).length
          rw [List.length_append, hcc]

/-- Every reachable transcriber state satisfies the coupling invariant. -/
theorem reachable_inv : ∀ s, Reachable s → InvGood s := by
  intro s h
  induction h with
  | start => exact ⟨[], by simp, rfl, rfl⟩
  | rst s' _ _ => exact ⟨[], by simp, rfl, rfl⟩
  | add s' chunk _ ih => exact ih
  | pass s' asr _ ih => exact step_inv s' asr ih

/-- C10.  In every `StreamingTranscriber` state reachable via `reset`,
`add_audio_chunk` and `transcribe_current`, `confirmed_word_count` equals
the number of whitespace-separated words of `confirmed_text`, so the
confirmed boundary used for counter tracking and partial-text extraction
always agrees with the emitted confirmed text. -/
theorem claim10_confirmed_word_count_inv (s : RState) (h : Reachable s) :
    s.confirmed_word_count = (words s.confirmed_text).length := by
  obtain ⟨ws, hg, hct, hcc⟩ := reachable_inv s h
  rw [hct, hcc, words_joinWords ws hg]

/-- C10, concrete instance (witness): the freshly initialised state is
reachable and satisfies the invariant. -/
theorem claim10_confirmed_word_count_inv_inst :
    initState.confirmed_word_count = (words initState.confirmed_text).length :=
  claim10_confirmed_word_count_inv initState Reachable.start

/-- The overlap-search loop unfolds from the right: checking up to `n + 1`
is checking up to `n` and then length `n + 1` (which wins if it matches,
since the loop keeps the **last** matching length). -/
theorem bestOverlap_succ (ew nw : List String) (n : Nat) :
    bestOverlap ew nw (n + 1)
      = (if overlapMatch ew nw (n + 1) then n + 1 else bestOverlap ew nw n) := by
  unfold bestOverlap
  have hr0 : List.range' 1 (n + 1) = List.range' 1 n ++ [1 + 1 * n] :=
    List.range'_concat 1 n
  have hr : List.range' 1 (n + 1) = List.range' 1 n ++ [n + 1] := by
    rw [hr0]
    congr 1
    simp [Nat.add_comm]
  rw [hr, List.foldl_append]
  simp [List.foldl]

/-- The loop's result is the **largest** matching overlap length in
`[1, maxLen]`, or `0` when no length matches. -/
theorem bestOverlap_spec (ew nw : List String) :
    ∀ maxLen,
      (bestOverlap ew nw maxLen = 0
        ∧ ∀ l, 1 ≤ l → l ≤ maxLen → overlapMatch ew nw l = false)
      ∨ (1 ≤ bestOverlap ew nw maxLen ∧ bestOverlap ew nw maxLen ≤ maxLen
        ∧ overlapMatch ew nw (bestOverlap ew nw maxLen) = true
        ∧ ∀ l, l ≤ maxLen → overlapMatch ew nw l = true →
            l ≤ bestOverlap ew nw maxLen) := by
  intro maxLen
  induction maxLen with
  | zero =>
    left
    constructor
    · rfl
    · intro l h1 h2
      omega
  | succ n ih =>
    by_cases hm : overlapMatch ew nw (n + 1) = true
    · right
      rw [bestOverlap_succ, if_pos hm]
      refine ⟨by omega, by omega, hm, ?_⟩
      intro l hl _
      omega
    · rw [bestOverlap_succ, if_neg hm]
      rcases ih with ⟨h0, hall⟩ | ⟨h1, h2, h3, h4⟩
      · left
        refine ⟨h0, ?_⟩
        intro l hl1 hl2
        rcases Nat.lt_or_ge l (n + 1) with hlt | hge
        · exact hall l hl1 (by omega)
        · have : l = n + 1 := by omega
          subst this
          exact Bool.not_eq_true _ ▸ eq_false_of_ne_true hm
      · right
        refine ⟨h1, by omega, h3, ?_⟩
        intro l hl hml
        rcases Nat.lt_or_ge l (n + 1) with hlt | hge
        · exact h4 l (by omega) hml
        · have : l = n + 1 := by omega
          subst this
          exact absurd hml hm

/-- The main branch of `merge_text` (both texts non-blank): the result is
the existing text plus either the remainder of the new chunk past the chosen
overlap, or the whole new chunk when no overlap matched. -/
theorem merge_text_main (e n : String) (ow : Nat) (he : e ≠ "")
    (hn : n ≠ "") (hew : words (trimS e) ≠ []) (hnw : words (trimS n) ≠ []) :
    merge_text e n ow
      = if 0 < bestOverlap (words (trimS e)) (words (trimS n))
            (min ow (min (words (trimS e)).length (words (trimS n)).length))
        then trimS (trimS e ++ " " ++ joinWords ((words (trimS n)).drop
              (bestOverlap (words (trimS e)) (words (trimS n))
                (min ow
                  (min (words (trimS e)).length (words (trimS n)).length)))))
        else trimS (trimS e ++ " " ++ trimS n) := by
  have hew' : (words (trimS e)).isEmpty = false := by simpa using hew
  have hnw' : (words (trimS n)).isEmpty = false := by simpa using hnw
  simp only [merge_text, if_neg he, if_neg hn, hew', hnw', Bool.or_self,
    Bool.false_eq_true, if_false]

/-- C3.  `merge_text` chooses the **largest** overlap length (up to
`overlap_words`, bounded by both word counts) whose case-insensitive
tail/head word comparison matches, and appends only the remainder of the new
chunk past that overlap; when no length matches it appends the whole new
chunk after a single space; an empty side passes the other side through.
The spec's four concrete examples are verified verbatim. -/
theorem claim3_merge_overlap :
    (∀ (e nc : String) (ow : Nat), e ≠ "" → nc ≠ "" →
      words (trimS e) ≠ [] → words (trimS nc) ≠ [] →
      let ew := words (trimS e)
      let nw := words (trimS nc)
      let maxLen := min ow (min ew.length nw.length)
      let b := bestOverlap ew nw maxLen
      ((0 < b ∧ overlapMatch ew nw b = true
          ∧ (∀ l, l ≤ maxLen → overlapMatch ew nw l = true → l ≤ b)
          ∧ merge_text e nc ow
              = trimS (trimS e ++ " " ++ joinWords (nw.drop b)))
        ∨ (b = 0
          ∧ (∀ l, 1 ≤ l → l ≤ maxLen → overlapMatch ew nw l = false)
          ∧ merge_text e nc ow = trimS (trimS e ++ " " ++ trimS nc))))
    ∧ merge_text "the quick brown" "brown fox jumps" 3
        = "the quick brown fox jumps"
    ∧ merge_text "hello world" "completely different text" 3
        = "hello world completely different text"
    ∧ merge_text "" "new text" 3 = "new text"
    ∧ merge_text "existing" "" 3 = "existing" := by
  refine ⟨?_, by decide, by decide, by decide, by decide⟩
  intro e nc ow he hn hew hnw
  dsimp only
  rcases bestOverlap_spec (words (trimS e)) (words (trimS nc))
      (min ow (min (words (trimS e)).length (words (trimS nc)).length)) with
    ⟨h0, hall⟩ | ⟨h1, h2, h3, h4⟩
  · right
    refine ⟨h0, hall, ?_⟩
    rw [merge_text_main e nc ow he hn hew hnw, if_neg (by omega)]
  · left
    refine ⟨by omega, h3, h4, ?_⟩
    rw [merge_text_main e nc ow he hn hew hnw, if_pos (by omega)]

/-- The chunking loop emits at least one chunk when audio remains. -/
theorem chunkLoop_ne_nil (len chunkS strideS : Nat) :
    ∀ fuel start, start < len → len - start ≤ fuel →
      chunkLoop len chunkS strideS fuel start ≠ [] := by
  intro fuel start h1 h2
  cases fuel with
  | zero => omega
  | succ fuel =>
    simp only [chunkLoop, if_pos h1]
    split
    · simp
    · simp

/-- The first chunk starts at the loop's start position. -/
theorem chunkLoop_head (len chunkS strideS : Nat) :
    ∀ fuel start, start < len → len - start ≤ fuel →
      ∃ e, (chunkLoop len chunkS strideS fuel start).head? = some (start, e) := by
  intro fuel start h1 h2
  cases fuel with
  | zero => omega
  | succ fuel =>
    simp only [chunkLoop, if_pos h1]
    split
    · exact ⟨_, rfl⟩
    · exact ⟨_, rfl⟩

/-- Every chunk is non-degenerate, at most `chunkS` samples long, and ends
within the audio; chunks start no earlier than the loop's start. -/
theorem chunkLoop_bounds (len chunkS strideS : Nat) (hc : 0 < chunkS) :
    ∀ fuel start p, p ∈ chunkLoop len chunkS strideS fuel start →
      start ≤ p.1 ∧ p.1 < p.2 ∧ p.2 - p.1 ≤ chunkS ∧ p.2 ≤ len := by
  intro fuel
  induction fuel with
  | zero => intro start p hp; simp [chunkLoop] at hp
  | succ fuel ih =>
    intro start p hp
    by_cases h1 : start < len
    · simp only [chunkLoop, if_pos h1] at hp
      by_cases he : len ≤ min (start + chunkS) len
      · rw [if_pos he] at hp
        simp only [List.mem_singleton] at hp
        subst hp
        simp only
        omega
      · rw [if_neg he] at hp
        rcases List.mem_cons.mp hp with hp | hp
        · subst hp
          simp only
          omega
        · have := ih (start + strideS) p hp
          omega
    · simp [chunkLoop, if_neg h1] at hp

/-- The last chunk ends exactly at the end of the audio. -/
theorem chunkLoop_last (len chunkS strideS : Nat) (hs : 0 < strideS)
    (hsc : strideS ≤ chunkS) :
    ∀ fuel start, start < len → len - start ≤ fuel →
      ∃ q, (chunkLoop len chunkS strideS fuel start).getLast?
        = some (q, len) := by
  intro fuel
  induction fuel with
  | zero => intro start h1 h2; omega
  | succ fuel ih =>
    intro start h1 h2
    simp only [chunkLoop, if_pos h1]
    by_cases he : len ≤ min (start + chunkS) len
    · have hmin : min (start + chunkS) len = len := by omega
      rw [if_pos he, hmin]
      exact ⟨start, rfl⟩
    · rw [if_neg he]
      have h1' : start + strideS < len := by omega
      obtain ⟨q, hq⟩ := ih (start + strideS) h1' (by omega)
      cases hl : chunkLoop len chunkS strideS fuel (start + strideS) with
      | nil => exact absurd hl (chunkLoop_ne_nil _ _ _ _ _ h1' (by omega))
      | cons b t =>
        rw [hl] at hq
        rw [List.getLast?_cons_cons]
        exact ⟨q, hq⟩

/-- Every sample position of the audio is covered by some chunk. -/
theorem chunkLoop_cover (len chunkS strideS : Nat) (hs : 0 < strideS)
    (hsc : strideS ≤ chunkS) :
    ∀ fuel start x, start < len → len - start ≤ fuel → start ≤ x → x < len →
      ∃ p ∈ chunkLoop len chunkS strideS fuel start, p.1 ≤ x ∧ x < p.2 := by
  intro fuel
  induction fuel with
  | zero => intro start x h1 h2 h3 h4; omega
  | succ fuel ih =>
    intro start x h1 h2 h3 h4
    simp only [chunkLoop, if_pos h1]
    by_cases he : len ≤ min (start + chunkS) len
    · have hmin : min (start + chunkS) len = len := by omega
      rw [if_pos he]
      exact ⟨(start, min (start + chunkS) len),
        List.mem_singleton.mpr rfl, h3, by omega⟩
    · rw [if_neg he]
      by_cases hxe : x < min (start + chunkS) len
      · exact ⟨(start, min (start + chunkS) len),
          List.mem_cons_self _ _, h3, hxe⟩
      · have hlt : start + chunkS < len := by omega
        have hx2 : start + strideS ≤ x := by omega
        obtain ⟨p, hp, hpx⟩ := ih (start + strideS) x (by omega) (by omega)
          hx2 h4
        exact ⟨p, List.mem_cons_of_mem _ hp, hpx⟩

/-- Consecutive chunks leave no gap: each chunk starts at or before the
previous chunk's end (overlap of `chunkS - strideS` samples). -/
theorem chunkLoop_chain (len chunkS strideS : Nat) (hsc : strideS ≤ chunkS) :
    ∀ fuel start,
      List.Chain' (fun p q : Nat × Nat => q.1 ≤ p.2)
        (chunkLoop len chunkS strideS fuel start) := by
  intro fuel
  induction fuel with
  | zero => intro start; simp [chunkLoop]
  | succ fuel ih =>
    intro start
    by_cases h1 : start < len
    · simp only [chunkLoop, if_pos h1]
      by_cases he : len ≤ min (start + chunkS) len
      · rw [if_pos he]
        simp
      · rw [if_neg he]
        apply List.chain'_cons'.mpr
        refine ⟨?_, ih (start + strideS)⟩
        intro q hq
        cases fuel with
        | zero => simp [chunkLoop] at hq
        | succ f =>
          by_cases h2 : start + strideS < len
          · simp only [chunkLoop, if_pos h2] at hq
            split at hq <;> simp only [List.head?_cons, Option.mem_def,
              Option.some.injEq] at hq <;> subst hq <;> simp <;> omega
          · simp [chunkLoop, if_neg h2] at hq
    · simp [chunkLoop, if_neg h1]

/-- C4.  For a buffer of `L` samples at rate `sr` (duration `D = L / sr`
seconds) with `MaxChunkDuration = 30` s and `ChunkOverlap = 2` s, the chunk
list covers `[0, L)` with no gaps (each chunk after the first starts at or
before the previous chunk's end), every chunk is at most `30 * sr` samples
(30 s) long, and the last chunk ends exactly at `L` (the tail is truncated,
never padded).  `_chunk_audio` and `_chunk_long_audio` agree on long audio
(`_chunk_audio` short-circuits audio that fits one chunk). -/
theorem claim4_chunk_coverage (L sr : Nat) (hsr : 0 < sr) (hL : 0 < L) :
    chunk_audio L sr ≠ []
    ∧ (∀ p ∈ chunk_audio L sr, p.2 - p.1 ≤ 30 * sr ∧ p.2 ≤ L)
    ∧ List.Chain' (fun p q : Nat × Nat => q.1 ≤ p.2) (chunk_audio L sr)
    ∧ (∀ pr : Nat × Nat, (chunk_audio L sr).getLast? = some pr → pr.2 = L)
    ∧ (∀ x, x < L → ∃ p ∈ chunk_audio L sr, p.1 ≤ x ∧ x < p.2)
    ∧ (30 * sr < L → chunk_audio L sr = chunk_long_audio L sr) := by
  by_cases hshort : L ≤ 30 * sr
  · rw [chunk_audio, if_pos hshort]
    refine ⟨by simp, ?_, by simp, ?_, ?_, ?_⟩
    · intro p hp
      simp only [List.mem_singleton] at hp
      subst hp
      simp only
      omega
    · intro pr hpr
      simp only [List.getLast?_singleton, Option.some.injEq] at hpr
      subst hpr
      rfl
    · intro x hx
      exact ⟨(0, L), List.mem_singleton.mpr rfl, by omega, hx⟩
    · intro h
      omega
  · have hchunk : 0 < 30 * sr := by omega
    have hstride : 0 < 30 * sr - 2 * sr := by omega
    have hsc : 30 * sr - 2 * sr ≤ 30 * sr := by omega
    have heq : chunk_audio L sr
        = chunkLoop L (30 * sr) (30 * sr - 2 * sr) (L + 1) 0 := by
      rw [chunk_audio, if_neg hshort]
      rfl
    refine ⟨?_, ?_, ?_, ?_, ?_, ?_⟩
    · rw [heq]
      exact chunkLoop_ne_nil _ _ _ _ _ (by omega) (by omega)
    · intro p hp
      rw [heq] at hp
      have := chunkLoop_bounds L (30 * sr) (30 * sr - 2 * sr) hchunk
        (L + 1) 0 p hp
      omega
    · rw [heq]
      exact chunkLoop_chain L (30 * sr) (30 * sr - 2 * sr) hsc (L + 1) 0
    · intro pr hpr
      rw [heq] at hpr
      obtain ⟨q, hq⟩ := chunkLoop_last L (30 * sr) (30 * sr - 2 * sr) hstride
        hsc (L + 1) 0 (by omega) (by omega)
      rw [hq] at hpr
      cases hpr
      rfl
    · intro x hx
      rw [heq]
      exact chunkLoop_cover L (30 * sr) (30 * sr - 2 * sr) hstride hsc
        (L + 1) 0 x (by omega) (by omega) (by omega) hx
    · intro _
      rw [chunk_audio, if_neg hshort]

/-- C4, concrete instance (witness): 100 samples at rate 1 (100 s of
"audio") chunk into `[(0,30), (28,58), (56,86), (84,100)]`-shaped cover
satisfying every conjunct. -/
theorem claim4_chunk_coverage_inst :
    chunk_audio 100 1 ≠ []
    ∧ (∀ p ∈ chunk_audio 100 1, p.2 - p.1 ≤ 30 * 1 ∧ p.2 ≤ 100)
    ∧ List.Chain' (fun p q : Nat × Nat => q.1 ≤ p.2) (chunk_audio 100 1)
    ∧ (∀ pr : Nat × Nat, (chunk_audio 100 1).getLast? = some pr → pr.2 = 100)
    ∧ (∀ x, x < 100 → ∃ p ∈ chunk_audio 100 1, p.1 ≤ x ∧ x < p.2)
    ∧ (30 * 1 < 100 → chunk_audio 100 1 = chunk_long_audio 100 1) :=
  claim4_chunk_coverage 100 1 (by decide) (by decide)

/-- Lookup after a cons of the request log. -/
theorem getTimes_cons (p : String × List Int)
    (rest : List (String × List Int)) (ip : String) :
    getTimes (p :: rest) ip = if p.1 == ip then p.2 else getTimes rest ip := by
  by_cases h : (p.1 == ip) = true
  · simp [getTimes, List.find?_cons_of_pos, h]
  · simp [getTimes, List.find?_cons_of_neg, h]

/-- `is_allowed` when the periodic sweep is still dormant
(less than `cleanup_interval` since the last sweep). -/
theorem is_allowed_eq (rl : RateLimiter) (now : Int) (ip : String)
    (h : now - rl.last_cleanup < rl.cleanup_interval) :
    is_allowed rl now ip
      = (let ts := (getTimes rl.requests ip).filter (fun t => decide (now - 60 < t))
         if rl.requests_per_minute ≤ ts.length then
           (false, { rl with requests := setTimes rl.requests ip ts })
         else
           (true, { rl with requests := setTimes rl.requests ip (ts ++ [now]) })) := by
  rw [is_allowed]
  simp only [cleanup_old_entries, if_pos h]

/-- C8.  With `requests_per_minute = 3`, three calls from client "1.2.3.4"
inside one 60-second window are allowed and the fourth call in the same
window is rejected, while an interleaved call from the different client
"5.6.7.8" is allowed — the per-client sliding windows are independent.
Times are arbitrary (monotone, within 60 s of the first request and within
the 300 s cleanup interval of construction). -/
theorem claim8_rate_limit (t0 t1 t2 t3 t4 t5 : Int)
    (h01 : t0 ≤ t1) (h12 : t1 ≤ t2) (h23 : t2 ≤ t3) (h34 : t3 ≤ t4)
    (h45 : t4 ≤ t5) (hwin : t5 < t1 + 60) (hcl : t5 < t0 + 300) :
    (is_allowed (RateLimiter.mkAt 3 300 t0) t1 "1.2.3.4").1 = true
    ∧ (is_allowed (is_allowed (RateLimiter.mkAt 3 300 t0) t1 "1.2.3.4").2
        t2 "1.2.3.4").1 = true
    ∧ (is_allowed (is_allowed (is_allowed (RateLimiter.mkAt 3 300 t0) t1
        "1.2.3.4").2 t2 "1.2.3.4").2 t3 "5.6.7.8").1 = true
    ∧ (is_allowed (is_allowed (is_allowed (is_allowed
        (RateLimiter.mkAt 3 300 t0) t1 "1.2.3.4").2 t2 "1.2.3.4").2 t3
        "5.6.7.8").2 t4 "1.2.3.4").1 = true
    ∧ (is_allowed (is_allowed (is_allowed (is_allowed (is_allowed
        (RateLimiter.mkAt 3 300 t0) t1 "1.2.3.4").2 t2 "1.2.3.4").2 t3
        "5.6.7.8").2 t4 "1.2.3.4").2 t5 "1.2.3.4").1 = false := by
  have hAA : (("1.2.3.4" : String) == "1.2.3.4") = true := by decide
  have hAB : (("5.6.7.8" : String) == "1.2.3.4") = false := by decide
  have hBA : (("1.2.3.4" : String) == "5.6.7.8") = false := by decide
  have hk1 : decide (t2 - 60 < t1) = true := decide_eq_true (by omega)
  have hk2 : decide (t4 - 60 < t1) = true := decide_eq_true (by omega)
  have hk3 : decide (t4 - 60 < t2) = true := decide_eq_true (by omega)
  have hk4 : decide (t5 - 60 < t1) = true := decide_eq_true (by omega)
  have hk5 : decide (t5 - 60 < t2) = true := decide_eq_true (by omega)
  have hk6 : decide (t5 - 60 < t4) = true := decide_eq_true (by omega)
  have e1 : is_allowed (RateLimiter.mkAt 3 300 t0) t1 "1.2.3.4"
      = (true, ⟨3, [("1.2.3.4", [t1])], t0, 300⟩) := by
    rw [is_allowed_eq _ _ _ (by show t1 - t0 < (300 : Int); omega)]
    simp [RateLimiter.mkAt, getTimes, setTimes]
  rw [e1]
  have e2 : is_allowed (⟨3, [("1.2.3.4", [t1])], t0, 300⟩ : RateLimiter)
      t2 "1.2.3.4"
      = (true, ⟨3, [("1.2.3.4", [t1, t2])], t0, 300⟩) := by
    rw [is_allowed_eq _ _ _ (by show t2 - t0 < (300 : Int); omega)]
    simp [getTimes_cons, hAA, setTimes, List.filter_cons, hk1]
  rw [e2]
  have e3 : is_allowed (⟨3, [("1.2.3.4", [t1, t2])], t0, 300⟩ : RateLimiter)
      t3 "5.6.7.8"
      = (true, ⟨3, [("1.2.3.4", [t1, t2]), ("5.6.7.8", [t3])], t0, 300⟩) := by
    rw [is_allowed_eq _ _ _ (by show t3 - t0 < (300 : Int); omega)]
    simp [getTimes_cons, hBA, getTimes, setTimes]
  rw [e3]
  have e4 : is_allowed
      (⟨3, [("1.2.3.4", [t1, t2]), ("5.6.7.8", [t3])], t0, 300⟩ : RateLimiter)
      t4 "1.2.3.4"
      = (true,
         ⟨3, [("1.2.3.4", [t1, t2, t4]), ("5.6.7.8", [t3])], t0, 300⟩) := by
    rw [is_allowed_eq _ _ _ (by show t4 - t0 < (300 : Int); omega)]
    simp [getTimes_cons, hAA, setTimes, List.filter_cons, hk2, hk3]
  rw [e4]
  have e5 : (is_allowed
      (⟨3, [("1.2.3.4", [t1, t2, t4]), ("5.6.7.8", [t3])], t0,
        300⟩ : RateLimiter) t5 "1.2.3.4").1 = false := by
    rw [is_allowed_eq _ _ _ (by show t5 - t0 < (300 : Int); omega)]
    simp [getTimes_cons, hAA, List.filter_cons, hk4, hk5, hk6]
  exact ⟨rfl, rfl, rfl, rfl, e5⟩

/-- C8, concrete instance (witness): the scenario at times 1..5 with the
limiter constructed at time 0. -/
theorem claim8_rate_limit_inst :
    (is_allowed (RateLimiter.mkAt 3 300 0) 1 "1.2.3.4").1 = true
    ∧ (is_allowed (is_allowed (RateLimiter.mkAt 3 300 0) 1 "1.2.3.4").2
        2 "1.2.3.4").1 = true
    ∧ (is_allowed (is_allowed (is_allowed (RateLimiter.mkAt 3 300 0) 1
        "1.2.3.4").2 2 "1.2.3.4").2 3 "5.6.7.8").1 = true
    ∧ (is_allowed (is_allowed (is_allowed (is_allowed
        (RateLimiter.mkAt 3 300 0) 1 "1.2.3.4").2 2 "1.2.3.4").2 3
        "5.6.7.8").2 4 "1.2.3.4").1 = true
    ∧ (is_allowed (is_allowed (is_allowed (is_allowed (is_allowed
        (RateLimiter.mkAt 3 300 0) 1 "1.2.3.4").2 2 "1.2.3.4").2 3
        "5.6.7.8").2 4 "1.2.3.4").2 5 "1.2.3.4").1 = false :=
  claim8_rate_limit 0 1 2 3 4 5 (by decide) (by decide) (by decide)
    (by decide) (by decide) (by decide) (by decide)

/-- A text without a case-insensitive occurrence of the pattern is left
unchanged by the substitution scan. -/
theorem replGo_no_occurrence (pat repl : List Char) :
    ∀ (cs : List Char) (fuel : Nat),
      hasSub (pat.map Char.toLower) (cs.map Char.toLower) = false →
      replGo pat repl fuel cs = cs := by
  intro cs
  induction cs with
  | nil =>
    intro fuel _
    cases fuel with
    | zero => rfl
    | succ fuel => rfl
  | cons c rest ih =>
    intro fuel h
    cases fuel with
    | zero => rfl
    | succ fuel =>
      rw [List.map_cons, hasSub, Bool.or_eq_false_iff] at h
      rw [replGo]
      rw [show (c :: rest).map Char.toLower
          = Char.toLower c :: rest.map Char.toLower from rfl]
      rw [h.1]
      simp only [Bool.false_eq_true, if_false]
      rw [ih fuel h.2]

/-- C6 (amended).  `apply_dictionary` replaces each validated mis-heard term
case-insensitively wherever it occurs as a **substring** — including inside
longer words, since the compiled pattern carries no word-boundary anchors —
and the pattern is literal (`re.escape`): a "." in a stored mishearing
matches only ".".  Text containing no case-insensitive occurrence of the
mishearing is returned unchanged.  (Replacement strings are inserted
verbatim; in the source a correction containing a backslash would further be
interpreted as a `re.sub` template escape, which validation does not
exclude.) -/
theorem claim6_dictionary_amended :
    (∀ (m r text : String),
        hasSub (m.data.map Char.toLower) (text.data.map Char.toLower)
            = false →
        apply_dictionary text [(m, r)] = text)
    ∧ apply_dictionary "the CAT sat" [("cat", "dog")] = "the dog sat"
    ∧ validate_dictionary_entry "a.b" "X" = true
    ∧ apply_dictionary "a.b axb" [("a.b", "X")] = "X axb" := by
  refine ⟨?_, by decide, by decide, by decide⟩
  intro m r text h
  by_cases ht : text = ""
  · simp [apply_dictionary, ht]
  · have hne : (((m, r) :: []).isEmpty || (text = "")) = false := by
      simp [ht]
    simp only [apply_dictionary, hne, Bool.false_eq_true, if_false,
      List.foldl_cons, List.foldl_nil]
    show replaceCI text m r = text
    unfold replaceCI
    rw [replGo_no_occurrence m.data r.data text.data _ h, mk_data]

/-- C6, counterexample to the claim as stated.  The entry ("cat", "dog")
passes `validate_dictionary_entry`, yet `apply_dictionary` rewrites inside
the longer word "concatenate" — the claim's "only where it occurs as a whole
word (never as a substring inside a longer word)" fails on the code, whose
pattern `re.escape(mishearing)` has no `\b` anchors. -/
theorem claim6_dictionary_counterexample :
    validate_dictionary_entry "cat" "dog" = true
    ∧ apply_dictionary "concatenate" [("cat", "dog")] = "condogenate"
    ∧ apply_dictionary "concatenate" [("cat", "dog")] ≠ "concatenate" := by
  refine ⟨by decide, by decide, by decide⟩

/-- C7 (amended).  `cleanup` is **not** idempotent on every input: `re.sub`
replaces non-overlapping matches only, so `_remove_stuttering` can leave a
residual repeated word that a second pass removes — `cleanup "a a a"`
yields `"A a"` (the first two words collapse, the third survives the scan,
and `_fix_formatting` capitalises), and a second application collapses
`"A a"` to `"A"` (the IGNORECASE backreference matches across case).  A
second pass returns the same text exactly when the first pass's output is a
fixed point of `cleanup`, as on already-clean text such as `"Hi there"`. -/
theorem claim7_cleanup_amended :
    cleanup "a a a" = "A a"
    ∧ cleanup "A a" = "A"
    ∧ cleanup "Hi there" = "Hi there"
    ∧ cleanup (cleanup "Hi there") = cleanup "Hi there" := by
  refine ⟨by decide, by decide, by decide, by decide⟩

/-- C7, counterexample to the claim as stated: applying `cleanup` to its own
output on input "a a a" does not yield the same output
(`cleanup "a a a" = "A a"` but `cleanup "A a" = "A"`), so
`cleanup (cleanup t) = cleanup t` fails. -/
theorem claim7_cleanup_counterexample :
    cleanup (cleanup "a a a") ≠ cleanup "a a a" := by
  decide

end VoiceFlow
